import Mathlib

/-!
Verification development for the newsfetcher repository.

Strings are modelled as `List Char` (Python `str` compares and slices by
code point, matching `List Char` length/indexing).  Machine integers do not
occur on the modelled paths.  External effects (network fetches, the LLM
call, JSON decoding) are passed in as explicit function arguments, so every
definition is executable.
-/

namespace NewsFetcher

/-! ## Python string primitives -/

/-- Python `str.strip()` whitespace set (ASCII part). -/
def pyIsSpace (c : Char) : Bool :=
  c = ' ' || c = '\t' || c = '\n' || c = '\r' || c = '\x0b' || c = '\x0c'

/-- Python `str.strip()`: drop whitespace from both ends. -/
def pyStrip (l : List Char) : List Char :=
  ((l.dropWhile pyIsSpace).reverse.dropWhile pyIsSpace).reverse

/-- Python `s.split(c)[0]`: everything before the first occurrence of `c`. -/
def takeUntil (c : Char) (l : List Char) : List Char :=
  l.takeWhile (fun x => x ≠ c)

/-- Split on the first occurrence of `c`; `none` if `c` is absent
(Python `s.split(c, 1)`). -/
def splitFirst (c : Char) : List Char → List Char × Option (List Char)
  | [] => ([], none)
  | x :: xs =>
    if x = c then ([], some xs)
    else
      let r := splitFirst c xs
      (x :: r.1, r.2)

/-- Python `s.split(sep)` for a one-character separator: keeps empty pieces. -/
def splitSep (sep : Char) : List Char → List (List Char)
  | [] => [[]]
  | c :: rest =>
    if c = sep then [] :: splitSep sep rest
    else
      match splitSep sep rest with
      | [] => [[c]]
      | p :: ps => (c :: p) :: ps

/-- Python string `<=` (lexicographic by code point). -/
def pyStrLe : List Char → List Char → Bool
  | [], _ => true
  | _ :: _, [] => false
  | x :: xs, y :: ys => if x = y then pyStrLe xs ys else decide (x < y)

/-- Decimal rendering of a natural number, Python `str(n)`. -/
def natStr (n : Nat) : List Char :=
  Nat.toDigits 10 n

/-! ## `urllib.parse` model

`urlsplit` in CPython (3.10.5+) removes every tab/CR/LF, strips leading
C0-control-or-space characters, then splits scheme, `//netloc`, fragment
and query in that order.  `urlparse` additionally splits `;params` off the
path, and `urlunparse` re-attaches them verbatim, so composing the two is
the same as keeping the path whole; we model the 5-tuple. -/

/-- Bytes CPython removes anywhere in a URL before parsing. -/
def urlKeepChar (c : Char) : Bool :=
  c ≠ '\t' && c ≠ '\r' && c ≠ '\n'

/-- C0 control or space (stripped from the left of a URL). -/
def isC0OrSpace (c : Char) : Bool :=
  c.toNat ≤ 0x20

/-- Characters allowed in a URL scheme after the initial letter. -/
def isSchemeChar (c : Char) : Bool :=
  c.isAlphanum || c = '+' || c = '-' || c = '.'

/-- A character that ends the netloc portion of `//netloc...`. -/
def endsNetloc (c : Char) : Bool :=
  c = '/' || c = '?' || c = '#'

structure UrlParts where
  scheme : List Char
  netloc : List Char
  path : List Char
  query : List Char
  fragment : List Char
  deriving Repr, DecidableEq

/-- Model of `urllib.parse.urlsplit` (params kept inside `path`). -/
def pyUrlsplit (url0 : List Char) : UrlParts :=
  let u1 := (url0.dropWhile isC0OrSpace).filter urlKeepChar
  let schemeSplit :=
    match splitFirst ':' u1 with
    | (before, some after) =>
      if (match before with
          | c :: _ => c.isAlpha && before.all isSchemeChar
          | [] => false) then
        (before.map Char.toLower, after)
      else ([], u1)
    | (_, none) => ([], u1)
  let scheme := schemeSplit.1
  let u2 := schemeSplit.2
  let netlocSplit :=
    if ("//".toList).isPrefixOf u2 then
      ((u2.drop 2).takeWhile (fun c => ¬ endsNetloc c),
       (u2.drop 2).dropWhile (fun c => ¬ endsNetloc c))
    else ([], u2)
  let netloc := netlocSplit.1
  let u3 := netlocSplit.2
  let fragSplit := splitFirst '#' u3
  let u4 := fragSplit.1
  let fragment := (fragSplit.2).getD []
  let querySplit := splitFirst '?' u4
  let path := querySplit.1
  let query := (querySplit.2).getD []
  ⟨scheme, netloc, path, query, fragment⟩

/-- `urlparse(u).netloc`. -/
def pyNetloc (url : List Char) : List Char :=
  (pyUrlsplit url).netloc

/-- Model of `urllib.parse.urlunsplit` (with params already inside `path`,
this also models `urlunparse`). -/
def pyUrlunsplit (p : UrlParts) : List Char :=
  let url := p.path
  let url :=
    if p.netloc ≠ [] ∨ ("//".toList).isPrefixOf url then
      let url := if url ≠ [] ∧ url.head? ≠ some '/' then '/' :: url else url
      "//".toList ++ p.netloc ++ url
    else url
  let url := if p.scheme ≠ [] then p.scheme ++ ':' :: url else url
  let url := if p.query ≠ [] then url ++ '?' :: p.query else url
  let url := if p.fragment ≠ [] then url ++ '#' :: p.fragment else url
  url

/-! ### percent-encoding (`quote_plus` / `unquote_plus`) -/

def hexDigitUpper (n : Nat) : Char :=
  if n < 10 then Char.ofNat (48 + n) else Char.ofNat (55 + n)

/-- UTF-8 bytes of one code point. -/
def utf8Encode (c : Char) : List Nat :=
  let n := c.toNat
  if n < 0x80 then [n]
  else if n < 0x800 then [0xC0 + n / 64, 0x80 + n % 64]
  else if n < 0x10000 then [0xE0 + n / 4096, 0x80 + n / 64 % 64, 0x80 + n % 64]
  else [0xF0 + n / 262144, 0x80 + n / 4096 % 64, 0x80 + n / 64 % 64, 0x80 + n % 64]

/-- Characters `urllib.parse.quote` never escapes. -/
def quoteSafeChar (c : Char) : Bool :=
  (c.isAlphanum && c.toNat < 128) || c = '_' || c = '.' || c = '-' || c = '~'

/-- `urllib.parse.quote_plus` with `safe=''`. -/
def quotePlus (s : List Char) : List Char :=
  s.foldr (fun c acc =>
    (if c = ' ' then ['+']
     else if quoteSafeChar c then [c]
     else (utf8Encode c).foldr
       (fun b acc2 => '%' :: hexDigitUpper (b / 16) :: hexDigitUpper (b % 16) :: acc2)
       []) ++ acc) []

def hexVal? (c : Char) : Option Nat :=
  if '0' ≤ c ∧ c ≤ '9' then some (c.toNat - 48)
  else if 'A' ≤ c ∧ c ≤ 'F' then some (c.toNat - 55)
  else if 'a' ≤ c ∧ c ≤ 'f' then some (c.toNat - 87)
  else none

/-- Consume a maximal run of `%hh` escapes, returning the decoded bytes and
the remainder of the input. -/
def collectBytes : List Char → List Nat × List Char
  | '%' :: a :: b :: rest =>
    match hexVal? a, hexVal? b with
    | some x, some y =>
      let r := collectBytes rest
      ((16 * x + y) :: r.1, r.2)
    | _, _ => ([], '%' :: a :: b :: rest)
  | l => ([], l)

def isContByte (b : Nat) : Bool :=
  0x80 ≤ b && b ≤ 0xBF

/-- UTF-8 decoding with `errors='replace'` (U+FFFD for malformed input).
Structural recursion on a fuel bounded by the input length — every step
consumes at least one byte, so the fuel never runs out. -/
def utf8DecodeAux : Nat → List Nat → List Char
  | 0, _ => []
  | _ + 1, [] => []
  | fuel + 1, b :: rest =>
    if b < 0x80 then
      Char.ofNat b :: utf8DecodeAux fuel rest
    else if 0xC2 ≤ b ∧ b ≤ 0xDF then
      match rest with
      | b2 :: rest2 =>
        if isContByte b2 then
          Char.ofNat ((b - 0xC0) * 64 + (b2 - 0x80)) :: utf8DecodeAux fuel rest2
        else '�' :: utf8DecodeAux fuel (b2 :: rest2)
      | [] => ['�']
    else if 0xE0 ≤ b ∧ b ≤ 0xEF then
      match rest with
      | b2 :: b3 :: rest3 =>
        if isContByte b2 ∧ isContByte b3 ∧
            (b ≠ 0xE0 ∨ 0xA0 ≤ b2) ∧ (b ≠ 0xED ∨ b2 ≤ 0x9F) then
          Char.ofNat ((b - 0xE0) * 4096 + (b2 - 0x80) * 64 + (b3 - 0x80)) :: utf8DecodeAux fuel rest3
        else '�' :: utf8DecodeAux fuel (b2 :: b3 :: rest3)
      | [b2] => '�' :: utf8DecodeAux fuel [b2]
      | [] => ['�']
    else if 0xF0 ≤ b ∧ b ≤ 0xF4 then
      match rest with
      | b2 :: b3 :: b4 :: rest4 =>
        if isContByte b2 ∧ isContByte b3 ∧ isContByte b4 ∧
            (b ≠ 0xF0 ∨ 0x90 ≤ b2) ∧ (b ≠ 0xF4 ∨ b2 ≤ 0x8F) then
          Char.ofNat ((b - 0xF0) * 262144 + (b2 - 0x80) * 4096 + (b3 - 0x80) * 64 + (b4 - 0x80))
            :: utf8DecodeAux fuel rest4
        else '�' :: utf8DecodeAux fuel (b2 :: b3 :: b4 :: rest4)
      | [b2, b3] => '�' :: utf8DecodeAux fuel [b2, b3]
      | [b2] => '�' :: utf8DecodeAux fuel [b2]
      | [] => ['�']
    else '�' :: utf8DecodeAux fuel rest

def utf8Decode (l : List Nat) : List Char :=
  utf8DecodeAux l.length l

/-- One scanning pass of `urllib.parse.unquote` (fuel = input length;
each step consumes at least one character). -/
def pyUnquoteAux : Nat → List Char → List Char
  | 0, _ => []
  | _ + 1, [] => []
  | fuel + 1, '%' :: rest =>
    match collectBytes ('%' :: rest) with
    | ([], _) => '%' :: pyUnquoteAux fuel rest
    | (bs, r) => utf8Decode bs ++ pyUnquoteAux fuel r
  | fuel + 1, c :: rest => c :: pyUnquoteAux fuel rest

/-- `urllib.parse.unquote` (UTF-8, `errors='replace'`). -/
def pyUnquote (l : List Char) : List Char :=
  pyUnquoteAux l.length l

/-- `unquote_plus`: `+` becomes a space, then percent-decoding. -/
def pyUnquotePlus (l : List Char) : List Char :=
  pyUnquote (l.map (fun c => if c = '+' then ' ' else c))

/-! ### `parse_qs` / `urlencode` -/

/-- `urllib.parse.parse_qsl` with default arguments: split the query on
`&`, skip empty chunks, chunks without `=`, and chunks with an empty
value. -/
def parseQsl (qs : List Char) : List (List Char × List Char) :=
  let chunks := if qs = [] then [] else splitSep '&' qs
  chunks.foldr (fun chunk acc =>
    if chunk = [] then acc
    else
      match splitFirst '=' chunk with
      | (_, none) => acc
      | (name, some value) =>
        if value = [] then acc
        else (pyUnquotePlus name, pyUnquotePlus value) :: acc) []

/-- Insertion-ordered dictionary append used by `parse_qs`. -/
def dictAppend (k : List Char) (v : List Char) :
    List (List Char × List (List Char)) → List (List Char × List (List Char))
  | [] => [(k, [v])]
  | (k', vs) :: rest =>
    if k' = k then (k', vs ++ [v]) :: rest
    else (k', vs) :: dictAppend k v rest

/-- `urllib.parse.parse_qs` with default arguments. -/
def parse_qs (qs : List Char) : List (List Char × List (List Char)) :=
  (parseQsl qs).foldl (fun d p => dictAppend p.1 p.2 d) []

/-- Python dict assignment `d[k] = vs`: replace in place, else append. -/
def dictSet (k : List Char) (vs : List (List Char)) :
    List (List Char × List (List Char)) → List (List Char × List (List Char))
  | [] => [(k, vs)]
  | (k', vs') :: rest =>
    if k' = k then (k, vs) :: rest
    else (k', vs') :: dictSet k vs rest

/-- Join query components with `&`. -/
def joinAmp : List (List Char) → List Char
  | [] => []
  | [x] => x
  | x :: y :: rest => x ++ '&' :: joinAmp (y :: rest)

/-- `urllib.parse.urlencode(d, doseq=True)` for a dict of string lists. -/
def urlencodeDoseq (d : List (List Char × List (List Char))) : List Char :=
  joinAmp ((d.map (fun p => p.2.map (fun v => quotePlus p.1 ++ '=' :: quotePlus v))).flatten)

/-! ## `crawler_service._build_paginated_url` -/

/-- `_build_paginated_url`: replace or add the pagination parameter. -/
def build_paginated_url (base_url : List Char) (pagination_param : List Char)
    (page_number : Nat) : List Char :=
  let parsed := pyUrlsplit base_url
  let params := parse_qs parsed.query
  let params := dictSet pagination_param [natStr page_number] params
  let new_query := urlencodeDoseq params
  pyUrlunsplit { parsed with query := new_query }

/-! ## Link extraction (`crawler_service`)

The three regexes of `crawler_service` are hand-compiled scanners.  Each
models `re.findall`: try a match at every position from the left, and on
success continue after the matched text.  The character classes involved
(`[^"\']+`, `[^\]]+`, `[^\)]+`) exclude their own closing delimiter, so
the greedy run is forced and no backtracking arises. -/

def isQuote (c : Char) : Bool :=
  c = '"' || c = '\''

/-- `re.findall(r'href=["\']([^"\']+)["\']', html)`.  Structural
recursion on a fuel bounded by the input length — every branch consumes
at least one character, so the fuel never runs out. -/
def findallHrefAux : Nat → List Char → List (List Char)
  | 0, _ => []
  | _ + 1, [] => []
  | fuel + 1, l =>
    match l with
    | 'h' :: 'r' :: 'e' :: 'f' :: '=' :: q :: rest =>
      if isQuote q then
        match rest.dropWhile (fun c => ¬ isQuote c) with
        | _ :: rest2 =>
          let cap := rest.takeWhile (fun c => ¬ isQuote c)
          if cap = [] then findallHrefAux fuel ('r' :: 'e' :: 'f' :: '=' :: q :: rest)
          else cap :: findallHrefAux fuel rest2
        | [] => findallHrefAux fuel ('r' :: 'e' :: 'f' :: '=' :: q :: rest)
      else findallHrefAux fuel ('r' :: 'e' :: 'f' :: '=' :: q :: rest)
    | _ :: rest => findallHrefAux fuel rest
    | [] => []

def findallHref (l : List Char) : List (List Char) :=
  findallHrefAux l.length l

/-- Parse `https?://[^X]+X` (`X` = the closing delimiter) at the head of
the input; returns the captured URL (scheme included, delimiter excluded)
and how many input characters the whole match consumed.  The delimiter
exists exactly when the greedy run is shorter than the remaining input. -/
def parseHttpRun (stop : Char → Bool) (l : List Char) :
    Option (List Char × Nat) :=
  match l with
  | 'h' :: 't' :: 't' :: 'p' :: 's' :: ':' :: '/' :: '/' :: rest2 =>
    let run := rest2.takeWhile (fun c => ¬ stop c)
    if run = [] then none
    else if run.length < rest2.length then
      some ("https://".toList ++ run, 8 + run.length + 1)
    else none
  | 'h' :: 't' :: 't' :: 'p' :: ':' :: '/' :: '/' :: rest2 =>
    let run := rest2.takeWhile (fun c => ¬ stop c)
    if run = [] then none
    else if run.length < rest2.length then
      some ("http://".toList ++ run, 7 + run.length + 1)
    else none
  | _ => none

/-- `re.findall(r'\[([^\]]+)\]\((https?://[^\)]+)\)', text)`, giving the
`(text, url)` capture pairs.  Fuel-bounded as above. -/
def findallMdAux : Nat → List Char → List (List Char × List Char)
  | 0, _ => []
  | _ + 1, [] => []
  | fuel + 1, l =>
    match l with
    | '[' :: rest =>
      let txt := rest.takeWhile (fun c => c ≠ ']')
      match rest.dropWhile (fun c => c ≠ ']') with
      | _ :: '(' :: rest2 =>
        if txt = [] then findallMdAux fuel rest
        else
          match parseHttpRun (fun c => c = ')') rest2 with
          | some (url, consumed) => (txt, url) :: findallMdAux fuel (rest2.drop consumed)
          | none => findallMdAux fuel rest
      | _ => findallMdAux fuel rest
    | _ :: rest => findallMdAux fuel rest
    | [] => []

def findallMd (l : List Char) : List (List Char × List Char) :=
  findallMdAux l.length l

/-- `re.findall(r'href=["\']((https?://[^"\']+))["\']', html)` from
`_extract_links_from_html` (the inner capture only, as the code uses).
Fuel-bounded as above. -/
def findallHrefHttpAux : Nat → List Char → List (List Char)
  | 0, _ => []
  | _ + 1, [] => []
  | fuel + 1, l =>
    match l with
    | 'h' :: 'r' :: 'e' :: 'f' :: '=' :: q :: rest =>
      if isQuote q then
        match parseHttpRun isQuote rest with
        | some (url, consumed) => url :: findallHrefHttpAux fuel (rest.drop consumed)
        | none => findallHrefHttpAux fuel ('r' :: 'e' :: 'f' :: '=' :: q :: rest)
      else findallHrefHttpAux fuel ('r' :: 'e' :: 'f' :: '=' :: q :: rest)
    | _ :: rest => findallHrefHttpAux fuel rest
    | [] => []

def findallHrefHttp (l : List Char) : List (List Char) :=
  findallHrefHttpAux l.length l

/-! ## `extract_article_links` -/

/-- `_is_article_url` applies `re.match(pattern, url)` for a per-source
pattern; the pattern is abstracted as a boolean shape matcher. -/
def is_article_url (pat : List Char → Bool) (url : List Char) : Bool :=
  pat url

/-- The `seen` set and `links` list threaded through both loops of
`extract_article_links`.  `seen` holds exactly the elements of `links`
(every `seen.add` is paired with a `links.append`). -/
structure ExtState where
  seen : List (List Char)
  links : List (List Char)
  deriving Repr, DecidableEq

/-- `url.strip().split('#')[0].split('?')[0]`. -/
def normalizeFirstPass (raw : List Char) : List Char :=
  takeUntil '?' (takeUntil '#' (pyStrip raw))

/-- The candidate URL the HTML loop considers for a raw `href` capture:
keep it if it starts with `http`, resolve it against the base domain if it
is site-relative, and otherwise skip it (the
`not url or not url.startswith('http')` branch). -/
def htmlCandidate (base_domain : List Char) (raw : List Char) : Option (List Char) :=
  let url := normalizeFirstPass raw
  if ¬ ("http".toList).isPrefixOf url then
    if url.head? = some '/' then some ("https://".toList ++ base_domain ++ url)
    else none
  else some url

/-- One iteration of the HTML loop of `extract_article_links`. -/
def htmlStep (base_domain : List Char) (pat : List Char → Bool)
    (st : ExtState) (raw : List Char) : ExtState :=
  match htmlCandidate base_domain raw with
  | none => st
  | some url =>
    if url ∈ st.seen then st
    else if pyNetloc url ≠ base_domain then st
    else if ¬ is_article_url pat url then st
    else ⟨url :: st.seen, st.links ++ [url]⟩

/-- One iteration of the markdown fallback loop of
`extract_article_links` (`m = (text, url)` capture pair). -/
def mdStep (base_domain : List Char) (pat : List Char → Bool)
    (st : ExtState) (m : List Char × List Char) : ExtState :=
  let url := normalizeFirstPass m.2
  if url ∈ st.seen then st
  else if pyNetloc url ≠ base_domain then st
  else if ¬ is_article_url pat url then st
  else ⟨url :: st.seen, st.links ++ [url]⟩

/-- `extract_article_links(html, base_url, article_pattern)`. -/
def extract_article_links (html base_url : List Char)
    (pat : List Char → Bool) : List (List Char) :=
  let base_domain := pyNetloc base_url
  let st1 := (findallHref html).foldl (htmlStep base_domain pat) ⟨[], []⟩
  if st1.links = [] then
    ((findallMd html).foldl (mdStep base_domain pat) st1).links
  else st1.links

/-- The HTML pass of `extract_article_links` on its own. -/
def htmlPassLinks (html base_url : List Char) (pat : List Char → Bool) :
    List (List Char) :=
  ((findallHref html).foldl (htmlStep (pyNetloc base_url) pat) ⟨[], []⟩).links

/-- The markdown pass of `extract_article_links` on its own, started from
an empty state. -/
def mdPassLinks (html base_url : List Char) (pat : List Char → Bool) :
    List (List Char) :=
  ((findallMd html).foldl (mdStep (pyNetloc base_url) pat) ⟨[], []⟩).links

/-! ## `_extract_links_from_html` (interactive-pagination pass) -/

/-- `_extract_links_from_html(html, base_domain, article_pattern)`:
strips only the fragment from each matched absolute URL, then filters by
domain and shape.  The Python `set` is modelled as a list without
duplicates (add = append when new). -/
def interactiveStep (base_domain : List Char) (pat : List Char → Bool)
    (acc : List (List Char)) (raw : List Char) : List (List Char) :=
  let url := takeUntil '#' (pyStrip raw)
  if pyNetloc url ≠ base_domain then acc
  else if ¬ is_article_url pat url then acc
  else if url ∈ acc then acc
  else acc ++ [url]

def extract_links_from_html (html : List Char) (base_domain : List Char)
    (pat : List Char → Bool) : List (List Char) :=
  (findallHrefHttp html).foldl (interactiveStep base_domain pat) []

/-! ## `_paginate_by_url` -/

/-- One step of the `for link in new_links` merge loop of
`_paginate_by_url`; the accumulator is `(all_links, seen, added)`. -/
def mergeStep (acc : List (List Char) × List (List Char) × Nat)
    (link : List Char) : List (List Char) × List (List Char) × Nat :=
  if link ∈ acc.2.1 then acc
  else (acc.1 ++ [link], link :: acc.2.1, acc.2.2 + 1)

/-- Merge `new_links` into `(all_links, seen)`, counting additions (the
inner `for link in new_links` loop of `_paginate_by_url`). -/
def mergeNew (all_links seen : List (List Char)) (new_links : List (List Char)) :
    List (List Char) × List (List Char) × Nat :=
  new_links.foldl mergeStep (all_links, seen, 0)

/-- Loop body of `_paginate_by_url` over the remaining page numbers.
`fetch` abstracts `crawl_category_page` (raising = `.error`).  Returns the
collected links and the list of page numbers actually fetched. -/
def paginateGo (fetch : List Char → Except Unit (List Char))
    (base_url : List Char) (needed : Nat) (pat : List Char → Bool)
    (pagination_param : List Char) :
    List Nat → List (List Char) → List (List Char) →
    List (List Char) × List Nat
  | [], all_links, _ => (all_links, [])
  | page :: pages, all_links, seen =>
    if needed ≤ all_links.length then (all_links, [])
    else
      match fetch (build_paginated_url base_url pagination_param page) with
      | .error _ => (all_links, [page])
      | .ok html =>
        let new_links := extract_article_links html base_url pat
        let merged := mergeNew all_links seen new_links
        if merged.2.2 = 0 then (merged.1, [page])
        else
          let r := paginateGo fetch base_url needed pat pagination_param
            pages merged.1 merged.2.1
          (r.1, page :: r.2)

/-- `_paginate_by_url(base_url, needed, already_found, article_pattern,
pagination_param, source_name, max_pages)`: pages 2 .. max_pages+1. -/
def paginate_by_url (fetch : List Char → Except Unit (List Char))
    (base_url : List Char) (needed : Nat) (already_found : List (List Char))
    (pat : List Char → Bool) (pagination_param : List Char)
    (max_pages : Nat := 10) : List (List Char) × List Nat :=
  paginateGo fetch base_url needed pat pagination_param
    (List.range' 2 max_pages) already_found already_found

/-! ## `mistral_service._call_mistral_with_retry` -/

/-- Outcome of one attempt of the underlying completion call. -/
inductive MistralCall where
  | ok (s : List Char)
  | err (msg : List Char)
  deriving Repr, DecidableEq

/-- Python `needle in haystack` substring test. -/
def isSubstr (needle : List Char) : List Char → Bool
  | [] => needle.isPrefixOf []
  | c :: rest => needle.isPrefixOf (c :: rest) || isSubstr needle rest

/-- `"429" in error_msg or "rate_limit" in error_msg.lower()`. -/
def isRateLimitMsg (msg : List Char) : Bool :=
  isSubstr ("429".toList) msg ||
    isSubstr ("rate_limit".toList) (msg.map Char.toLower)

/-- Result of `_call_mistral_with_retry`: a response, a re-raised
non-rate-limit error, or the final `Exception` after exhausting retries. -/
inductive RetryResult where
  | success (s : List Char)
  | raised (msg : List Char)
  | exhausted
  deriving Repr, DecidableEq

/-- The retry loop, by remaining attempts: `remaining = max_retries -
attempt`, so the loop runs `attempt = 0, 1, ...` while `remaining > 0`.
The second component records the backoff sleeps (`2 ** (attempt + 1)`)
performed, in order. -/
def retryGo (call : Nat → MistralCall) :
    Nat → Nat → List Nat → RetryResult × List Nat
  | 0, _, sleeps => (.exhausted, sleeps)
  | remaining + 1, attempt, sleeps =>
    match call attempt with
    | .ok s => (.success s, sleeps)
    | .err m =>
      if isRateLimitMsg m then
        retryGo call remaining (attempt + 1) (sleeps ++ [2 ^ (attempt + 1)])
      else (.raised m, sleeps)

/-- `_call_mistral_with_retry(prompt, max_retries)` with the network call
abstracted as `call : attempt ↦ outcome`. -/
def call_mistral_with_retry (call : Nat → MistralCall)
    (max_retries : Nat := 5) : RetryResult × List Nat :=
  retryGo call max_retries 0 []

/-! ## `mistral_service` normalization pipeline -/

/-- The value model for `json.loads` output (numbers as integers suffice
for the fields this service touches). -/
inductive JValue where
  | null
  | bool (b : Bool)
  | num (n : Int)
  | str (s : List Char)
  | arr (xs : List JValue)
  | obj (fields : List (List Char × JValue))
  deriving Repr

/-- `dict.get(k)`: `json.loads` gives later duplicate keys precedence, so
lookup takes the last binding. -/
def jGet (fields : List (List Char × JValue)) (k : List Char) : Option JValue :=
  fields.foldl (fun acc p => if p.1 = k then some p.2 else acc) none

/-- `dict.get(k, d)`. -/
def jGetD (fields : List (List Char × JValue)) (k : List Char) (d : JValue) : JValue :=
  (jGet fields k).getD d

/-- Python truthiness of a JSON value (`None`/`False`/`0`/`""`/`[]`/`{}`
are falsy). -/
def jTruthy : JValue → Bool
  | .null => false
  | .bool b => b
  | .num n => n != 0
  | .str s => !s.isEmpty
  | .arr xs => !xs.isEmpty
  | .obj fs => !fs.isEmpty

/-- Truthiness of `dict.get(k)` (missing key → `None` → falsy). -/
def jTruthyOpt : Option JValue → Bool
  | none => false
  | some v => jTruthy v

/-- The code-fence stripping at the top of `_parse_mistral_response`. -/
def stripFences (t0 : List Char) : List Char :=
  let t := pyStrip t0
  let t := if ("```json".toList).isPrefixOf t then t.drop 7 else t
  let t := if ("```".toList).isPrefixOf t then t.drop 3 else t
  let t := if ("```".toList).isSuffixOf t then t.take (t.length - 3) else t
  pyStrip t

/-- The dict `_parse_mistral_response` returns on success. -/
structure ParsedDoc where
  title : JValue
  content : JValue
  date_of_publication : JValue
  language : JValue
  deriving Repr

/-- Validation of the decoded JSON in `_parse_mistral_response`.
`.error` models an exception that is NOT `json.JSONDecodeError` escaping
(`.get` on a non-dict, `.strip()` on a non-string). -/
def parseMistralJson (data : JValue) : Except Unit (Option ParsedDoc) :=
  match data with
  | .obj fields =>
    if ¬ jTruthyOpt (jGet fields ("title".toList)) ∨
        ¬ jTruthyOpt (jGet fields ("content".toList)) then
      .ok none
    else
      match jGet fields ("content".toList) with
      | some (.str s) =>
        if (pyStrip s).length < 50 then .ok none
        else .ok (some
          { title := jGetD fields ("title".toList) (.str [])
            content := jGetD fields ("content".toList) (.str [])
            date_of_publication := (jGet fields ("date_of_publication".toList)).getD .null
            language := jGetD fields ("language".toList) (.str ("unknown".toList)) })
      | _ => .error ()
  | _ => .error ()

/-- `_parse_mistral_response(response_text)`, with `json.loads` passed in
(`none` = `JSONDecodeError`, which the function catches). -/
def parse_mistral_response (loads : List Char → Option JValue)
    (response_text : List Char) : Except Unit (Option ParsedDoc) :=
  if response_text = [] then .ok none
  else
    match loads (stripFences response_text) with
    | none => .ok none
    | some data => parseMistralJson data

/-- `_extract_date_from_url`: leftmost `/dddd/dd/dd/` match. -/
def dateAt? (l : List Char) : Option (List Char) :=
  match l with
  | '/' :: a :: b :: c :: d :: '/' :: e :: f :: '/' :: g :: h :: '/' :: _ =>
    if [a, b, c, d, e, f, g, h].all Char.isDigit then
      some [a, b, c, d, '-', e, f, '-', g, h]
    else none
  | _ => none

def extract_date_from_url : List Char → Option (List Char)
  | [] => none
  | c :: rest =>
    match dateAt? (c :: rest) with
    | some s => some s
    | none => extract_date_from_url rest

/-- The normalized article assembled by `extract_article_with_mistral`. -/
structure NormalizedArticle where
  title : JValue
  content : List Char
  date_of_publication : JValue
  language : JValue
  category : List Char
  source_url : List Char
  source_name : List Char
  image_url : Option (List Char)
  deriving Repr

/-- Lines 109–122 of `mistral_service.py`: date backfill from the URL,
hard truncation of over-long content, and attachment of the carried-over
fields.  `.error` models the `TypeError` `len()` would raise on a
non-string content (unreachable from a successful parse). -/
def extractPostProcess (p : ParsedDoc) (category source_url source_name : List Char)
    (image_url : Option (List Char)) : Except Unit NormalizedArticle :=
  let d :=
    if ¬ jTruthy p.date_of_publication then
      match extract_date_from_url source_url with
      | some s => JValue.str s
      | none => JValue.null
    else p.date_of_publication
  match p.content with
  | .str s =>
    let s := if 1500 < s.length then s.take 1497 ++ "...".toList else s
    .ok ⟨p.title, s, d, p.language, category, source_url, source_name, image_url⟩
  | _ => .error ()

/-- `extract_article_with_mistral`: `response?` abstracts
`_call_mistral_with_retry` (`.error` = it raised), `loads` abstracts
`json.loads`.  Any exception inside the `try` yields `None`. -/
def extract_article_with_mistral (loads : List Char → Option JValue)
    (response? : Except Unit (List Char))
    (raw_text category source_url source_name : List Char)
    (image_url : Option (List Char)) : Option NormalizedArticle :=
  if raw_text = [] ∨ (pyStrip raw_text).length < 100 then none
  else
    match response? with
    | .error _ => none
    | .ok response =>
      match parse_mistral_response loads response with
      | .error _ => none
      | .ok none => none
      | .ok (some p) =>
        match extractPostProcess p category source_url source_name image_url with
        | .error _ => none
        | .ok n => some n

/-! ## `news.py` result filter -/

/-- An article as seen by `_filter_by_date`: the filter only reads
`date_of_publication`; `tag` stands for the rest of the record. -/
structure DatedArticle where
  date_of_publication : Option (List Char)
  tag : Nat
  deriving Repr, DecidableEq

/-- `_filter_by_date(articles, date_from, date_to)`. -/
def filter_by_date (articles : List DatedArticle)
    (date_from date_to : List Char) : List DatedArticle :=
  articles.foldl (fun result a =>
    match a.date_of_publication with
    | none => result ++ [a]
    | some d =>
      if pyStrLe date_from d ∧ pyStrLe d date_to then result ++ [a]
      else result) []

/-- The date filter plus final `filtered[:limit]` cap of `fetch_news`. -/
def filter_and_limit (processed : List DatedArticle)
    (date_from date_to : List Char) (limit : Nat) : List DatedArticle :=
  (filter_by_date processed date_from date_to).take limit

/-- The predicate `_filter_by_date` keeps an article by. -/
def keptByDateFilter (date_from date_to : List Char) (a : DatedArticle) : Bool :=
  match a.date_of_publication with
  | none => true
  | some d => pyStrLe date_from d && pyStrLe d date_to

/-- Invariant threaded through the two loops of `extract_article_links`:
every collected link is on the base domain, matches the shape pattern and
carries no query or fragment; the list has no duplicates; and `seen` holds
exactly the collected links (in reverse insertion order). -/
def goodLinks (base_url : List Char) (pat : List Char → Bool) (st : ExtState) : Prop :=
  (∀ u ∈ st.links, pyNetloc u = pyNetloc base_url ∧ pat u = true ∧ '?' ∉ u ∧ '#' ∉ u) ∧
    st.links.Nodup ∧ st.seen = st.links.reverse

/-! ## Helper lemmas -/

theorem takeWhile_append_all {α : Type} {p : α → Bool} {l₁ l₂ : List α}
    (h : ∀ a ∈ l₁, p a = true) :
    (l₁ ++ l₂).takeWhile p = l₁ ++ l₂.takeWhile p := by
  induction l₁ with
  | nil => simp
  | cons a l ih =>
    simp only [List.cons_append, List.takeWhile_cons]
    rw [h a (by simp)]
    simp only [if_true]
    rw [ih (fun b hb => h b (by simp [hb]))]

theorem splitFirst_snd_subset {c : Char} {l after : List Char}
    (h : (splitFirst c l).2 = some after) : after ⊆ l := by
  induction l with
  | nil => simp [splitFirst] at h
  | cons x xs ih =>
    simp only [splitFirst] at h
    by_cases hx : x = c
    · simp [hx] at h
      subst h
      exact List.subset_cons_self x xs
    · simp [hx] at h
      exact (ih h).trans (List.subset_cons_self x xs)

theorem pyNetloc_mem {b : List Char} {c : Char} (h : c ∈ pyNetloc b) :
    endsNetloc c = false ∧ urlKeepChar c = true := by
  unfold pyNetloc pyUrlsplit at h
  dsimp only at h
  split at h
  · refine ⟨by simpa using List.mem_takeWhile_imp h, ?_⟩
    have h2 := List.takeWhile_subset _ h
    have h3 := List.drop_subset 2 _ h2
    split at h3
    · split at h3
      · next heq hcond =>
        have hsub : _ ⊆ (b.dropWhile isC0OrSpace).filter urlKeepChar :=
          splitFirst_snd_subset (by rw [heq])
        exact (List.mem_filter.mp (hsub h3)).2
      · exact (List.mem_filter.mp h3).2
    · exact (List.mem_filter.mp h3).2
  · simp at h

/-- The netloc of `https://REST` is the maximal netloc prefix of the
scrubbed `REST`. -/
theorem pyNetloc_https (rest : List Char) :
    pyNetloc ("https://".toList ++ rest) =
      (rest.filter urlKeepChar).takeWhile (fun c => ¬ endsNetloc c) := by
  have h1 : ("https://".toList ++ rest) =
      'h' :: 't' :: 't' :: 'p' :: 's' :: ':' :: '/' :: '/' :: rest := rfl
  rw [h1]
  unfold pyNetloc pyUrlsplit
  simp only [List.dropWhile_cons, List.filter_cons,
    show isC0OrSpace 'h' = false from rfl,
    show urlKeepChar 'h' = true from rfl, show urlKeepChar 't' = true from rfl,
    show urlKeepChar 'p' = true from rfl, show urlKeepChar 's' = true from rfl,
    show urlKeepChar ':' = true from rfl, show urlKeepChar '/' = true from rfl,
    Bool.false_eq_true, if_false, if_true, splitFirst,
    show ('h' = ':') = False by simp, show ('t' = ':') = False by simp,
    show ('p' = ':') = False by simp, show ('s' = ':') = False by simp,
    show (':' = ':') = True by simp]
  simp [List.isPrefixOf, List.drop, takeWhile_append_all]

theorem normalizeFirstPass_no_query {raw : List Char} :
    '?' ∉ normalizeFirstPass raw ∧ '#' ∉ normalizeFirstPass raw := by
  constructor
  · intro h
    have := List.mem_takeWhile_imp h
    simp at this
  · intro h
    have h2 := List.takeWhile_subset (fun x => x ≠ '?') h
    have := List.mem_takeWhile_imp h2
    simp at this

theorem htmlCandidate_no_query {b raw u : List Char}
    (h : htmlCandidate (pyNetloc b) raw = some u) : '?' ∉ u ∧ '#' ∉ u := by
  unfold htmlCandidate at h
  dsimp only at h
  split at h
  · split at h
    · have hu : u = "https://".toList ++ pyNetloc b ++ normalizeFirstPass raw := by
        simpa using h.symm
      subst hu
      constructor
      · intro hm
        rcases List.mem_append.mp hm with hm2 | hm2
        · rcases List.mem_append.mp hm2 with hm3 | hm3
          · simp at hm3
          · have := (pyNetloc_mem hm3).1
            simp [endsNetloc] at this
        · exact normalizeFirstPass_no_query.1 hm2
      · intro hm
        rcases List.mem_append.mp hm with hm2 | hm2
        · rcases List.mem_append.mp hm2 with hm3 | hm3
          · simp at hm3
          · have := (pyNetloc_mem hm3).1
            simp [endsNetloc] at this
        · exact normalizeFirstPass_no_query.2 hm2
    · simp at h
  · have hu : u = normalizeFirstPass raw := by simpa using h.symm
    subst hu
    exact normalizeFirstPass_no_query

theorem htmlStep_eq_or {dom : List Char} {pat : List Char → Bool}
    {st : ExtState} {raw : List Char} :
    htmlStep dom pat st raw = st ∨
    ∃ u, htmlCandidate dom raw = some u ∧ u ∉ st.seen ∧
      pyNetloc u = dom ∧ pat u = true ∧
      htmlStep dom pat st raw = ⟨u :: st.seen, st.links ++ [u]⟩ := by
  unfold htmlStep
  cases hc : htmlCandidate dom raw with
  | none => exact Or.inl rfl
  | some u =>
    by_cases h1 : u ∈ st.seen
    · simp [h1]
    · by_cases h2 : pyNetloc u = dom
      · by_cases h3 : pat u = true
        · refine Or.inr ⟨u, rfl, h1, h2, h3, ?_⟩
          simp [h1, h2, is_article_url, h3]
        · simp [h1, h2, is_article_url, h3]
      · simp [h1, h2]

theorem mdStep_eq_or {dom : List Char} {pat : List Char → Bool}
    {st : ExtState} {m : List Char × List Char} :
    mdStep dom pat st m = st ∨
    (mdStep dom pat st m = ⟨normalizeFirstPass m.2 :: st.seen,
        st.links ++ [normalizeFirstPass m.2]⟩ ∧
      normalizeFirstPass m.2 ∉ st.seen ∧
      pyNetloc (normalizeFirstPass m.2) = dom ∧
      pat (normalizeFirstPass m.2) = true) := by
  unfold mdStep
  by_cases h1 : normalizeFirstPass m.2 ∈ st.seen
  · simp [h1]
  · by_cases h2 : pyNetloc (normalizeFirstPass m.2) = dom
    · by_cases h3 : pat (normalizeFirstPass m.2) = true
      · refine Or.inr ⟨?_, h1, h2, h3⟩
        simp [h1, h2, is_article_url, h3]
      · simp [h1, h2, is_article_url, h3]
    · simp [h1, h2]

theorem goodLinks_add {b : List Char} {pat : List Char → Bool} {st : ExtState}
    {u : List Char} (h : goodLinks b pat st) (hseen : u ∉ st.seen)
    (hdom : pyNetloc u = pyNetloc b) (hpat : pat u = true)
    (hq : '?' ∉ u) (hf : '#' ∉ u) :
    goodLinks b pat ⟨u :: st.seen, st.links ++ [u]⟩ := by
  obtain ⟨hall, hnodup, hsync⟩ := h
  have hnotmem : u ∉ st.links := by
    intro hmem
    exact hseen (by rw [hsync]; exact List.mem_reverse.mpr hmem)
  refine ⟨?_, ?_, ?_⟩
  · intro v hv
    rcases List.mem_append.mp hv with hv2 | hv2
    · exact hall v hv2
    · simp at hv2
      subst hv2
      exact ⟨hdom, hpat, hq, hf⟩
  · simp [List.nodup_append, hnodup, hnotmem]
  · simp [hsync, List.reverse_append]

theorem htmlStep_good {b : List Char} {pat : List Char → Bool}
    {st : ExtState} {raw : List Char} (h : goodLinks b pat st) :
    goodLinks b pat (htmlStep (pyNetloc b) pat st raw) := by
  rcases @htmlStep_eq_or (pyNetloc b) pat st raw with
    heq | ⟨u, hc, hseen, hdom, hpat, heq⟩
  · rw [heq]; exact h
  · rw [heq]
    obtain ⟨hq, hf⟩ := htmlCandidate_no_query hc
    exact goodLinks_add h hseen hdom hpat hq hf

theorem mdStep_good {b : List Char} {pat : List Char → Bool}
    {st : ExtState} {m : List Char × List Char} (h : goodLinks b pat st) :
    goodLinks b pat (mdStep (pyNetloc b) pat st m) := by
  rcases @mdStep_eq_or (pyNetloc b) pat st m with
    heq | ⟨heq, hseen, hdom, hpat⟩
  · rw [heq]; exact h
  · rw [heq]
    exact goodLinks_add h hseen hdom hpat
      normalizeFirstPass_no_query.1 normalizeFirstPass_no_query.2

theorem foldl_htmlStep_good {b : List Char} {pat : List Char → Bool}
    (ms : List (List Char)) (st : ExtState) (h : goodLinks b pat st) :
    goodLinks b pat (ms.foldl (htmlStep (pyNetloc b) pat) st) := by
  induction ms generalizing st with
  | nil => exact h
  | cons m ms ih => exact ih _ (htmlStep_good h)

theorem foldl_mdStep_good {b : List Char} {pat : List Char → Bool}
    (ms : List (List Char × List Char)) (st : ExtState) (h : goodLinks b pat st) :
    goodLinks b pat (ms.foldl (mdStep (pyNetloc b) pat) st) := by
  induction ms generalizing st with
  | nil => exact h
  | cons m ms ih => exact ih _ (mdStep_good h)

theorem goodLinks_nil {b : List Char} {pat : List Char → Bool} :
    goodLinks b pat ⟨[], []⟩ := by
  refine ⟨?_, ?_, ?_⟩ <;> simp [goodLinks]

theorem extract_article_links_good (html b : List Char) (pat : List Char → Bool) :
    (∀ u ∈ extract_article_links html b pat,
      pyNetloc u = pyNetloc b ∧ pat u = true ∧ '?' ∉ u ∧ '#' ∉ u) ∧
    (extract_article_links html b pat).Nodup := by
  unfold extract_article_links
  dsimp only
  split
  · have h := @foldl_mdStep_good b pat (findallMd html)
      ((findallHref html).foldl (htmlStep (pyNetloc b) pat) ⟨[], []⟩)
      (foldl_htmlStep_good _ _ goodLinks_nil)
    exact ⟨h.1, h.2.1⟩
  · have h := @foldl_htmlStep_good b pat (findallHref html)
      ⟨[], []⟩ goodLinks_nil
    exact ⟨h.1, h.2.1⟩

theorem htmlStep_links_mono {dom : List Char} {pat : List Char → Bool}
    {st : ExtState} {raw : List Char} :
    st.links ⊆ (htmlStep dom pat st raw).links := by
  rcases @htmlStep_eq_or dom pat st raw with
    heq | ⟨u, _, _, _, _, heq⟩
  · rw [heq]
    exact fun _ h => h
  · rw [heq]
    exact List.subset_append_left _ _

theorem foldl_htmlStep_links_mono {dom : List Char} {pat : List Char → Bool}
    (ms : List (List Char)) (st : ExtState) :
    st.links ⊆ (ms.foldl (htmlStep dom pat) st).links := by
  induction ms generalizing st with
  | nil => exact fun _ h => h
  | cons m ms ih => exact htmlStep_links_mono.trans (ih _)

theorem htmlStep_mem_candidate {dom : List Char} {pat : List Char → Bool}
    {st : ExtState} {raw u : List Char} (hsync : st.seen = st.links.reverse)
    (hc : htmlCandidate dom raw = some u) (hdom : pyNetloc u = dom)
    (hpat : pat u = true) : u ∈ (htmlStep dom pat st raw).links := by
  unfold htmlStep
  rw [hc]
  by_cases h1 : u ∈ st.seen
  · have : u ∈ st.links := by
      rw [hsync] at h1
      exact List.mem_reverse.mp h1
    simpa [h1] using this
  · simp [h1, hdom, is_article_url, hpat]

theorem foldl_htmlStep_mem {b : List Char} {pat : List Char → Bool}
    (ms : List (List Char)) (st : ExtState) (hgood : goodLinks b pat st)
    {raw u : List Char} (hraw : raw ∈ ms)
    (hc : htmlCandidate (pyNetloc b) raw = some u)
    (hdom : pyNetloc u = pyNetloc b) (hpat : pat u = true) :
    u ∈ (ms.foldl (htmlStep (pyNetloc b) pat) st).links := by
  induction ms generalizing st with
  | nil => simp at hraw
  | cons m ms ih =>
    rcases List.mem_cons.mp hraw with rfl | h'
    · exact foldl_htmlStep_links_mono ms _
        (htmlStep_mem_candidate hgood.2.2 hc hdom hpat)
    · exact ih _ (htmlStep_good hgood) h'

theorem extract_article_links_mem {html b : List Char} {pat : List Char → Bool}
    {raw u : List Char} (hraw : raw ∈ findallHref html)
    (hc : htmlCandidate (pyNetloc b) raw = some u)
    (hdom : pyNetloc u = pyNetloc b) (hpat : pat u = true) :
    u ∈ extract_article_links html b pat := by
  unfold extract_article_links
  dsimp only
  have hmem := foldl_htmlStep_mem (findallHref html) ⟨[], []⟩ goodLinks_nil
    hraw hc hdom hpat
  rw [if_neg (List.ne_nil_of_mem hmem)]
  exact hmem

theorem ExtState_eq_empty {st : ExtState} (hsync : st.seen = st.links.reverse)
    (h : st.links = []) : st = ⟨[], []⟩ := by
  obtain ⟨seen, links⟩ := st
  simp only at hsync h
  subst h
  simp at hsync
  subst hsync
  rfl

/-- `extract_article_links` decomposes into its HTML pass and, exactly
when that pass collects nothing, its markdown pass. -/
theorem extract_article_links_eq_passes (html b : List Char) (pat : List Char → Bool) :
    extract_article_links html b pat =
      if htmlPassLinks html b pat = [] then mdPassLinks html b pat
      else htmlPassLinks html b pat := by
  unfold extract_article_links htmlPassLinks mdPassLinks
  dsimp only
  by_cases h : ((findallHref html).foldl (htmlStep (pyNetloc b) pat) ⟨[], []⟩).links = []
  · rw [if_pos h, if_pos h]
    have hg := @foldl_htmlStep_good b pat (findallHref html)
      ⟨[], []⟩ goodLinks_nil
    rw [ExtState_eq_empty hg.2.2 h]
  · rw [if_neg h, if_neg h]

theorem interactiveStep_eq_or (dom : List Char) (pat : List Char → Bool)
    (acc : List (List Char)) (raw : List Char) :
    interactiveStep dom pat acc raw = acc ∨
    interactiveStep dom pat acc raw = acc ++ [takeUntil '#' (pyStrip raw)] := by
  unfold interactiveStep
  dsimp only
  split
  · exact Or.inl rfl
  · split
    · exact Or.inl rfl
    · split
      · exact Or.inl rfl
      · exact Or.inr rfl

theorem foldl_interactiveStep_mem {dom : List Char} {pat : List Char → Bool}
    (ms : List (List Char)) (acc : List (List Char)) {u : List Char}
    (h : u ∈ ms.foldl (interactiveStep dom pat) acc) :
    u ∈ acc ∨ ∃ raw, raw ∈ ms ∧ u = takeUntil '#' (pyStrip raw) := by
  induction ms generalizing acc with
  | nil => exact Or.inl h
  | cons m ms ih =>
    rcases ih _ h with h2 | ⟨raw, hr, he⟩
    · rcases interactiveStep_eq_or dom pat acc m with heq | heq
      · rw [heq] at h2
        exact Or.inl h2
      · rw [heq] at h2
        rcases List.mem_append.mp h2 with h3 | h3
        · exact Or.inl h3
        · simp at h3
          exact Or.inr ⟨m, by simp, h3⟩
    · exact Or.inr ⟨raw, by simp [hr], he⟩

theorem extract_links_from_html_shape (html dom : List Char) (pat : List Char → Bool)
    {u : List Char} (h : u ∈ extract_links_from_html html dom pat) :
    ∃ raw, raw ∈ findallHrefHttp html ∧ u = takeUntil '#' (pyStrip raw) := by
  unfold extract_links_from_html at h
  rcases foldl_interactiveStep_mem _ _ h with h2 | h2
  · simp at h2
  · exact h2

theorem mergeStep_fst_mem (acc : List (List Char) × List (List Char) × Nat)
    (link : List Char) {u : List Char} (h : u ∈ (mergeStep acc link).1) :
    u ∈ acc.1 ∨ u = link := by
  unfold mergeStep at h
  split at h
  · exact Or.inl h
  · rcases List.mem_append.mp h with h2 | h2
    · exact Or.inl h2
    · simp at h2
      exact Or.inr h2

theorem foldl_mergeStep_fst_mem (new : List (List Char))
    (acc : List (List Char) × List (List Char) × Nat) {u : List Char}
    (h : u ∈ (new.foldl mergeStep acc).1) : u ∈ acc.1 ∨ u ∈ new := by
  induction new generalizing acc with
  | nil => exact Or.inl h
  | cons m ms ih =>
    rcases ih _ h with h2 | h2
    · rcases mergeStep_fst_mem acc m h2 with h3 | h3
      · exact Or.inl h3
      · exact Or.inr (by simp [h3])
    · exact Or.inr (by simp [h2])

theorem paginateGo_fst_mem {fetch : List Char → Except Unit (List Char)}
    {base_url : List Char} {needed : Nat} {pat : List Char → Bool}
    {param : List Char} (pages : List Nat) (all seen : List (List Char))
    {u : List Char}
    (h : u ∈ (paginateGo fetch base_url needed pat param pages all seen).1) :
    u ∈ all ∨ '?' ∉ u := by
  induction pages generalizing all seen with
  | nil => exact Or.inl h
  | cons page pages ih =>
    unfold paginateGo at h
    split at h
    · exact Or.inl h
    · split at h
      · exact Or.inl h
      · next html heq =>
        dsimp only at h
        split at h
        · rcases foldl_mergeStep_fst_mem _ _ h with h2 | h2
          · exact Or.inl h2
          · exact Or.inr ((extract_article_links_good html base_url pat).1 u h2).2.2.1
        · rcases ih _ _ h with h2 | h2
          · rcases foldl_mergeStep_fst_mem _ _ h2 with h3 | h3
            · exact Or.inl h3
            · exact Or.inr ((extract_article_links_good html base_url pat).1 u h3).2.2.1
          · exact Or.inr h2

/-! ## Claim theorems -/

/-- C2: every URL returned by `extract_article_links` (for any content,
base URL and article pattern) has the same network authority as the base
URL and matches the article-shape pattern, and the returned list contains
no duplicate URLs. -/
theorem C2_extract_links_filtered_nodup (html base_url : List Char)
    (pat : List Char → Bool) :
    (∀ u ∈ extract_article_links html base_url pat,
      pyNetloc u = pyNetloc base_url ∧ pat u = true) ∧
    (extract_article_links html base_url pat).Nodup := by
  obtain ⟨hall, hnodup⟩ := extract_article_links_good html base_url pat
  exact ⟨fun u hu => ⟨(hall u hu).1, (hall u hu).2.1⟩, hnodup⟩

/-- Witness for C2 on a concrete page: the one accepted link is on the
base domain and matches the pattern, and the result is duplicate-free. -/
theorem C2_extract_links_filtered_nodup_witness :
    (pyNetloc ("https://ex.com/news/1".toList) =
        pyNetloc ("https://ex.com/cat".toList) ∧
      ("https://ex.com/news/".toList).isPrefixOf ("https://ex.com/news/1".toList) = true) ∧
    (extract_article_links
      ("href=\"https://ex.com/news/1?id=2\" href=\"https://other.com/x\"".toList)
      ("https://ex.com/cat".toList)
      (fun u => ("https://ex.com/news/".toList).isPrefixOf u)).Nodup :=
  ⟨(C2_extract_links_filtered_nodup
      ("href=\"https://ex.com/news/1?id=2\" href=\"https://other.com/x\"".toList)
      ("https://ex.com/cat".toList)
      (fun u => ("https://ex.com/news/".toList).isPrefixOf u)).1
      ("https://ex.com/news/1".toList) (by decide),
   (C2_extract_links_filtered_nodup
      ("href=\"https://ex.com/news/1?id=2\" href=\"https://other.com/x\"".toList)
      ("https://ex.com/cat".toList)
      (fun u => ("https://ex.com/news/".toList).isPrefixOf u)).2⟩

/-- C8: a site-relative `href` target (after first-pass normalization it
starts with `/`) is resolved against the base URL's authority, passes the
domain filter by construction, and — when the article pattern accepts the
resolved URL — appears in the extractor's output. -/
theorem C8_relative_link_resolved (html base_url : List Char)
    (pat : List Char → Bool) (raw : List Char)
    (hraw : raw ∈ findallHref html)
    (hrel : (normalizeFirstPass raw).head? = some '/')
    (hpat : pat ("https://".toList ++ pyNetloc base_url ++ normalizeFirstPass raw) = true) :
    pyNetloc ("https://".toList ++ pyNetloc base_url ++ normalizeFirstPass raw) =
      pyNetloc base_url ∧
    ("https://".toList ++ pyNetloc base_url ++ normalizeFirstPass raw) ∈
      extract_article_links html base_url pat := by
  obtain ⟨t, ht⟩ : ∃ t, normalizeFirstPass raw = '/' :: t := by
    cases hn : normalizeFirstPass raw with
    | nil => rw [hn] at hrel; simp at hrel
    | cons c t =>
      rw [hn] at hrel
      simp at hrel
      exact ⟨t, by rw [hrel]⟩
  have hdom : pyNetloc ("https://".toList ++ pyNetloc base_url ++ normalizeFirstPass raw) =
      pyNetloc base_url := by
    rw [ht, List.append_assoc, pyNetloc_https]
    rw [List.filter_append]
    rw [List.filter_eq_self.mpr (fun c hc => (pyNetloc_mem hc).2)]
    rw [takeWhile_append_all (fun c hc => by simp [(pyNetloc_mem hc).1])]
    rw [show List.filter urlKeepChar ('/' :: t) = '/' :: List.filter urlKeepChar t by
      simp [List.filter_cons, show urlKeepChar '/' = true from rfl]]
    rw [List.takeWhile_cons]
    simp [show endsNetloc '/' = true from rfl]
  refine ⟨hdom, ?_⟩
  have hc : htmlCandidate (pyNetloc base_url) raw =
      some ("https://".toList ++ pyNetloc base_url ++ normalizeFirstPass raw) := by
    unfold htmlCandidate
    dsimp only
    rw [ht]
    have h1 : ¬ (("http".toList).isPrefixOf ('/' :: t) = true) := by
      rw [show ("http".toList).isPrefixOf ('/' :: t) = false from rfl]
      simp
    have h2 : ('/' :: t).head? = some '/' := rfl
    rw [if_pos h1, if_pos h2]
  exact extract_article_links_mem hraw hc hdom hpat

/-- Witness for C8: the relative link `/news/7` on base
`https://ex.com/cat` is collected as `https://ex.com/news/7`. -/
theorem C8_relative_link_resolved_witness :
    ("https://".toList ++ pyNetloc ("https://ex.com/cat".toList) ++
        normalizeFirstPass ("/news/7".toList)) ∈
      extract_article_links ("href=\"/news/7\"".toList)
        ("https://ex.com/cat".toList) (fun _ => true) :=
  (C8_relative_link_resolved ("href=\"/news/7\"".toList)
    ("https://ex.com/cat".toList) (fun _ => true) ("/news/7".toList)
    (by decide) (by decide) (by decide)).2

/-- C4 as stated is false: this page contains a hyperlink-tag (`href`)
match, yet the extractor still uses the markdown-style scan, because the
HTML pass accepted zero links (its only match is off-domain). -/
theorem C4_counterexample :
    findallHref ("href=\"https://other.com/x\" [t](https://ex.com/a)".toList) ≠ [] ∧
    htmlPassLinks ("href=\"https://other.com/x\" [t](https://ex.com/a)".toList)
      ("https://ex.com/".toList) (fun _ => true) = [] ∧
    extract_article_links ("href=\"https://other.com/x\" [t](https://ex.com/a)".toList)
      ("https://ex.com/".toList) (fun _ => true) = ["https://ex.com/a".toList] ∧
    ("https://ex.com/a".toList) ∈
      mdPassLinks ("href=\"https://other.com/x\" [t](https://ex.com/a)".toList)
        ("https://ex.com/".toList) (fun _ => true) := by
  refine ⟨by decide, by decide, by decide, by decide⟩

/-- C4 amended: the markdown-style scan's result is used if and only if
the hyperlink-tag pass yields zero accepted links — not zero raw `href`
matches: raw matches that are all filtered out still trigger the
fallback. -/
theorem C4_markdown_fallback_on_empty_pass (html base_url : List Char)
    (pat : List Char → Bool) :
    extract_article_links html base_url pat =
      if htmlPassLinks html base_url pat = [] then mdPassLinks html base_url pat
      else htmlPassLinks html base_url pat :=
  extract_article_links_eq_passes html base_url pat

/-- C3 as stated is false: during a URL-parameter pagination pass the
collected link is query-stripped (`?id=1` is lost), because
`_paginate_by_url` reuses the first-pass extractor. -/
theorem C3_counterexample :
    ("https://ex.com/a".toList) ∈
      (paginate_by_url (fun _ => Except.ok ("href=\"https://ex.com/a?id=1\"".toList))
        ("https://ex.com/s/".toList) 5 [] (fun _ => true) ("page".toList) 10).1 ∧
    ("https://ex.com/a?id=1".toList) ∉
      (paginate_by_url (fun _ => Except.ok ("href=\"https://ex.com/a?id=1\"".toList))
        ("https://ex.com/s/".toList) 5 [] (fun _ => true) ("page".toList) 10).1 := by
  refine ⟨by decide, by decide⟩

/-- C3 amended: the first extraction pass strips both fragment and query,
and URL-parameter pagination passes — which reuse `extract_article_links`
— also strip the query (a collected link is either pre-existing or
query-free); only interactive-pagination passes
(`_extract_links_from_html`) preserve the query string, stripping the
fragment alone from the raw `href` capture. -/
theorem C3_query_stripping_per_pass (html base_url dom param : List Char)
    (pat : List Char → Bool) (fetch : List Char → Except Unit (List Char))
    (needed : Nat) (already : List (List Char)) :
    (∀ u ∈ extract_article_links html base_url pat, '?' ∉ u ∧ '#' ∉ u) ∧
    (∀ u ∈ (paginate_by_url fetch base_url needed already pat param 10).1,
      u ∈ already ∨ '?' ∉ u) ∧
    (∀ u ∈ extract_links_from_html html dom pat,
      ∃ raw, raw ∈ findallHrefHttp html ∧ u = takeUntil '#' (pyStrip raw)) := by
  refine ⟨?_, ?_, ?_⟩
  · intro u hu
    exact ((extract_article_links_good html base_url pat).1 u hu).2.2
  · intro u hu
    exact paginateGo_fst_mem _ _ _ hu
  · intro u hu
    exact extract_links_from_html_shape html dom pat hu

/-- Witness for C3 (amended), all three passes on concrete inputs: the
first pass strips `?id=1`; a URL-pagination pass yields only query-free
new links; the interactive pass keeps `?id=1`, stripping only `#sec`. -/
theorem C3_query_stripping_per_pass_witness :
    ('?' ∉ ("https://ex.com/a".toList) ∧ '#' ∉ ("https://ex.com/a".toList)) ∧
    (("https://ex.com/a".toList) ∈ ([] : List (List Char)) ∨
      '?' ∉ ("https://ex.com/a".toList)) ∧
    (∃ raw, raw ∈ findallHrefHttp ("href=\"https://ex.com/a?id=1#sec\"".toList) ∧
      ("https://ex.com/a?id=1".toList) = takeUntil '#' (pyStrip raw)) :=
  ⟨(C3_query_stripping_per_pass ("href=\"https://ex.com/a?id=1\"".toList)
      ("https://ex.com/s/".toList) ("ex.com".toList) ("page".toList)
      (fun _ => true) (fun _ => Except.ok ("href=\"https://ex.com/a?id=1\"".toList))
      5 []).1 ("https://ex.com/a".toList) (by decide),
   (C3_query_stripping_per_pass ("href=\"https://ex.com/a?id=1\"".toList)
      ("https://ex.com/s/".toList) ("ex.com".toList) ("page".toList)
      (fun _ => true) (fun _ => Except.ok ("href=\"https://ex.com/a?id=1\"".toList))
      5 []).2.1 ("https://ex.com/a".toList) (by decide),
   (C3_query_stripping_per_pass ("href=\"https://ex.com/a?id=1#sec\"".toList)
      ("https://ex.com/s/".toList) ("ex.com".toList) ("page".toList)
      (fun _ => true) (fun _ => Except.ok ("href=\"https://ex.com/a?id=1\"".toList))
      5 []).2.2 ("https://ex.com/a?id=1".toList) (by decide)⟩

theorem retryGo_all_rate_limited {call : Nat → MistralCall} :
    ∀ (k a : Nat) (sleeps : List Nat),
      (∀ i, i < k → ∃ m, call (a + i) = .err m ∧ isRateLimitMsg m = true) →
      retryGo call k a sleeps =
        (.exhausted, sleeps ++ (List.range k).map (fun i => 2 ^ (a + i + 1))) := by
  intro k
  induction k with
  | zero => intro a sleeps _; simp [retryGo]
  | succ k ih =>
    intro a sleeps h
    obtain ⟨m, hm, hrl⟩ := h 0 (by omega)
    rw [Nat.add_zero] at hm
    have hrec := ih (a + 1) (sleeps ++ [2 ^ (a + 1)])
      (fun i hi => by
        obtain ⟨m', hm', hrl'⟩ := h (i + 1) (by omega)
        exact ⟨m', by rw [← hm']; congr 1; omega, hrl'⟩)
    rw [retryGo, hm]
    simp only [hrl, if_true]
    rw [hrec]
    congr 1
    rw [List.range_succ_eq_map]
    simp [List.map_map, Function.comp, List.append_assoc]
    intro i _
    omega

theorem retryGo_rate_limited_then_ok {call : Nat → MistralCall} {s : List Char} :
    ∀ (k r a : Nat) (sleeps : List Nat), k < r →
      (∀ i, i < k → ∃ m, call (a + i) = .err m ∧ isRateLimitMsg m = true) →
      call (a + k) = .ok s →
      retryGo call r a sleeps =
        (.success s, sleeps ++ (List.range k).map (fun i => 2 ^ (a + i + 1))) := by
  intro k
  induction k with
  | zero =>
    intro r a sleeps hr _ hok
    obtain ⟨r', rfl⟩ : ∃ r', r = r' + 1 := ⟨r - 1, by omega⟩
    rw [Nat.add_zero] at hok
    rw [retryGo, hok]
    simp
  | succ k ih =>
    intro r a sleeps hr h hok
    obtain ⟨r', rfl⟩ : ∃ r', r = r' + 1 := ⟨r - 1, by omega⟩
    obtain ⟨m, hm, hrl⟩ := h 0 (by omega)
    rw [Nat.add_zero] at hm
    have hrec := ih r' (a + 1) (sleeps ++ [2 ^ (a + 1)]) (by omega)
      (fun i hi => by
        obtain ⟨m', hm', hrl'⟩ := h (i + 1) (by omega)
        exact ⟨m', by rw [← hm']; congr 1; omega, hrl'⟩)
      (by rw [← hok]; congr 1; omega)
    rw [retryGo, hm]
    simp only [hrl, if_true]
    rw [hrec]
    congr 1
    rw [List.range_succ_eq_map]
    simp [List.map_map, Function.comp, List.append_assoc]
    intro i _
    omega

theorem retryGo_non_rate_limit {call : Nat → MistralCall}
    (remaining attempt : Nat) (sleeps : List Nat) (m : List Char)
    (hm : call attempt = .err m) (hrl : isRateLimitMsg m = false) :
    retryGo call (remaining + 1) attempt sleeps = (.raised m, sleeps) := by
  rw [retryGo, hm]
  simp [hrl]

/-- C5: `_call_mistral_with_retry` retries only rate-limit-class failures,
sleeping 2, 4, 8, 16, 32 seconds across its (at most five) attempts; a
non-rate-limit failure re-raises at once with no further sleep; and a call
that rate-limits exactly three times and then succeeds is retried exactly
three times, with the increasing delays 2, 4, 8, and returns the success. -/
theorem C5_rate_limit_retry_policy (call : Nat → MistralCall) :
    ((∀ i, i < 5 → ∃ m, call i = .err m ∧ isRateLimitMsg m = true) →
      call_mistral_with_retry call 5 = (.exhausted, [2, 4, 8, 16, 32])) ∧
    (∀ remaining attempt sleeps m, call attempt = .err m →
      isRateLimitMsg m = false →
      retryGo call (remaining + 1) attempt sleeps = (.raised m, sleeps)) ∧
    ((∀ i, i < 3 → ∃ m, call i = .err m ∧ isRateLimitMsg m = true) →
      ∀ s, call 3 = .ok s →
      call_mistral_with_retry call 5 = (.success s, [2, 4, 8])) := by
  refine ⟨?_, ?_, ?_⟩
  · intro h
    unfold call_mistral_with_retry
    rw [retryGo_all_rate_limited 5 0 [] (fun i hi => by simpa using h i hi)]
    rfl
  · intro remaining attempt sleeps m hm hrl
    exact retryGo_non_rate_limit remaining attempt sleeps m hm hrl
  · intro h s hok
    unfold call_mistral_with_retry
    rw [retryGo_rate_limited_then_ok 3 5 0 [] (by omega)
      (fun i hi => by simpa using h i hi) (by simpa using hok)]
    rfl

/-- Witness for C5: a call that always answers 429 exhausts all five
attempts with sleeps 2,4,8,16,32; a call failing with a non-rate-limit
error raises at once with no sleeps; a call that rate-limits three times
then succeeds returns the response after sleeps 2,4,8. -/
theorem C5_rate_limit_retry_policy_witness :
    call_mistral_with_retry (fun _ => .err ("429 too many requests".toList)) 5 =
      (.exhausted, [2, 4, 8, 16, 32]) ∧
    retryGo (fun _ => .err ("boom".toList)) (4 + 1) 0 [] =
      (.raised ("boom".toList), []) ∧
    call_mistral_with_retry
      (fun i => if i < 3 then .err ("Rate_Limit hit".toList) else .ok ("R".toList)) 5 =
      (.success ("R".toList), [2, 4, 8]) :=
  ⟨(C5_rate_limit_retry_policy (fun _ => .err ("429 too many requests".toList))).1
      (fun i _ => ⟨("429 too many requests".toList), rfl, by decide⟩),
   (C5_rate_limit_retry_policy (fun _ => .err ("boom".toList))).2.1
      4 0 [] ("boom".toList) rfl (by decide),
   (C5_rate_limit_retry_policy
      (fun i => if i < 3 then .err ("Rate_Limit hit".toList) else .ok ("R".toList))).2.2
      (fun i hi => ⟨("Rate_Limit hit".toList), by simp [hi], by decide⟩)
      ("R".toList) (by decide)⟩

theorem foldl_mergeStep_fst_append (new : List (List Char))
    (acc : List (List Char) × List (List Char) × Nat) :
    ∃ ext, (new.foldl mergeStep acc).1 = acc.1 ++ ext := by
  induction new generalizing acc with
  | nil => exact ⟨[], by simp⟩
  | cons m ms ih =>
    obtain ⟨ext, hext⟩ := ih (mergeStep acc m)
    by_cases h : m ∈ acc.2.1
    · exact ⟨ext, by simpa [mergeStep, h] using hext⟩
    · refine ⟨m :: ext, ?_⟩
      simp only [List.foldl_cons]
      rw [hext]
      simp [mergeStep, h]

theorem foldl_mergeStep_id (new : List (List Char))
    (all seen : List (List Char)) (n : Nat)
    (h : ∀ l ∈ new, l ∈ seen) :
    new.foldl mergeStep (all, seen, n) = (all, seen, n) := by
  induction new with
  | nil => rfl
  | cons m ms ih =>
    simp only [List.foldl_cons]
    rw [show mergeStep (all, seen, n) m = (all, seen, n) by
      simp [mergeStep, h m (by simp)]]
    exact ih (fun l hl => h l (by simp [hl]))

theorem paginateGo_fst_append {fetch : List Char → Except Unit (List Char)}
    {base_url : List Char} {needed : Nat} {pat : List Char → Bool}
    {param : List Char} :
    ∀ (pages : List Nat) (all seen : List (List Char)),
      ∃ ext, (paginateGo fetch base_url needed pat param pages all seen).1 = all ++ ext := by
  intro pages
  induction pages with
  | nil => intro all seen; exact ⟨[], by simp [paginateGo]⟩
  | cons page pages ih =>
    intro all seen
    by_cases h1 : needed ≤ all.length
    · exact ⟨[], by simp [paginateGo, h1]⟩
    · cases hf : fetch (build_paginated_url base_url param page) with
      | error e =>
        exact ⟨[], by simp [paginateGo, h1, hf]⟩
      | ok html =>
        obtain ⟨ext1, hext1⟩ :=
          foldl_mergeStep_fst_append (extract_article_links html base_url pat)
            (all, seen, 0)
        by_cases h2 :
            (mergeNew all seen (extract_article_links html base_url pat)).2.2 = 0
        · refine ⟨ext1, ?_⟩
          simp only [mergeNew] at h2
          simp [paginateGo, h1, hf, mergeNew, h2, hext1]
        · obtain ⟨ext2, hext2⟩ :=
            ih (mergeNew all seen (extract_article_links html base_url pat)).1
              (mergeNew all seen (extract_article_links html base_url pat)).2.1
          refine ⟨ext1 ++ ext2, ?_⟩
          simp only [mergeNew] at h2 hext2
          have hext1' : (List.foldl mergeStep (all, seen, 0)
              (extract_article_links html base_url pat)).1 = all ++ ext1 := hext1
          rw [hext1'] at hext2
          simp [paginateGo, h1, hf, mergeNew, h2]
          rw [hext1', hext2, List.append_assoc]

theorem paginateGo_snd_take {fetch : List Char → Except Unit (List Char)}
    {base_url : List Char} {needed : Nat} {pat : List Char → Bool}
    {param : List Char} :
    ∀ (pages : List Nat) (all seen : List (List Char)),
      ∃ k, k ≤ pages.length ∧
        (paginateGo fetch base_url needed pat param pages all seen).2 = pages.take k := by
  intro pages
  induction pages with
  | nil => intro all seen; exact ⟨0, by omega, by simp [paginateGo]⟩
  | cons page pages ih =>
    intro all seen
    by_cases h1 : needed ≤ all.length
    · exact ⟨0, by omega, by simp [paginateGo, h1]⟩
    · cases hf : fetch (build_paginated_url base_url param page) with
      | error e =>
        exact ⟨1, by simp, by simp [paginateGo, h1, hf]⟩
      | ok html =>
        by_cases h2 :
            (mergeNew all seen (extract_article_links html base_url pat)).2.2 = 0
        · exact ⟨1, by simp, by simp [paginateGo, h1, hf, h2]⟩
        · obtain ⟨k, hk, hsnd⟩ :=
            ih (mergeNew all seen (extract_article_links html base_url pat)).1
              (mergeNew all seen (extract_article_links html base_url pat)).2.1
          refine ⟨k + 1, by simpa using hk, ?_⟩
          simp only [paginateGo, h1, if_neg, hf, h2, if_pos]
          simp [hsnd]

theorem foldl_mergeStep_counter_mono (new : List (List Char))
    (acc : List (List Char) × List (List Char) × Nat) :
    acc.2.2 ≤ (new.foldl mergeStep acc).2.2 := by
  induction new generalizing acc with
  | nil => exact Nat.le_refl _
  | cons m ms ih =>
    refine Nat.le_trans ?_ (ih (mergeStep acc m))
    unfold mergeStep
    split
    · exact Nat.le_refl _
    · exact Nat.le_succ _

theorem foldl_mergeStep_counter_pos (new : List (List Char)) :
    ∀ (all seen : List (List Char)) (n : Nat) (l : List Char),
      l ∈ new → l ∉ seen → n < (new.foldl mergeStep (all, seen, n)).2.2 := by
  induction new with
  | nil => intro all seen n l hl; simp at hl
  | cons m ms ih =>
    intro all seen n l hl hseen
    by_cases hm : m ∈ seen
    · have hlm : l ∈ ms := by
        rcases List.mem_cons.mp hl with rfl | h
        · exact absurd hm hseen
        · exact h
      simpa [List.foldl_cons, mergeStep, hm] using ih all seen n l hlm hseen
    · have := foldl_mergeStep_counter_mono ms (all ++ [m], m :: seen, n + 1)
      simp only [List.foldl_cons]
      rw [show mergeStep (all, seen, n) m = (all ++ [m], m :: seen, n + 1) by
        simp [mergeStep, hm]]
      have h2 : ((all ++ [m], m :: seen, n + 1).2.2 : Nat) = n + 1 := rfl
      omega

theorem range'_take : ∀ (n k s : Nat), k ≤ n →
    (List.range' s n).take k = List.range' s k := by
  intro n
  induction n with
  | zero => intro k s h; interval_cases k; simp
  | succ n ih =>
    intro k s h
    cases k with
    | zero => simp
    | succ k =>
      rw [List.range'_succ, List.range'_succ, List.take_succ_cons]
      rw [ih k (s + 1) (by omega)]

theorem paginateGo_snd_cons {fetch : List Char → Except Unit (List Char)}
    {base_url : List Char} {needed : Nat} {pat : List Char → Bool}
    {param : List Char} (page : Nat) (pages : List Nat)
    (all seen : List (List Char)) (h : ¬ needed ≤ all.length) :
    ∃ ps, (paginateGo fetch base_url needed pat param
      (page :: pages) all seen).2 = page :: ps := by
  rw [paginateGo]
  simp only [h, if_false]
  cases hf : fetch (build_paginated_url base_url param page) with
  | error e => exact ⟨[], rfl⟩
  | ok html =>
    dsimp only
    split
    · exact ⟨[], rfl⟩
    · exact ⟨_, rfl⟩

/-- C6: URL-parameter pagination keeps the initially found links as a
prefix of its result in every case (fetch errors included); the pages it
fetches are consecutive numbers starting at 2, at most 10 of them; it
fetches nothing when the needed count is already met; a fetch error on the
first page stops pagination, returning exactly the links collected so
far; a page that contributes zero new links stops pagination at that
page; and conversely, while none of the stop conditions holds — count
still short, fetch succeeded, new links were added — pagination proceeds
to the next page number. -/
theorem C6_url_pagination_stops (fetch : List Char → Except Unit (List Char))
    (base_url param : List Char) (pat : List Char → Bool) (needed : Nat)
    (already : List (List Char)) :
    (∃ ext, (paginate_by_url fetch base_url needed already pat param 10).1 =
      already ++ ext) ∧
    (∃ k, k ≤ 10 ∧ (paginate_by_url fetch base_url needed already pat param 10).2 =
      List.range' 2 k) ∧
    (needed ≤ already.length →
      paginate_by_url fetch base_url needed already pat param 10 = (already, [])) ∧
    (already.length < needed →
      fetch (build_paginated_url base_url param 2) = .error () →
      paginate_by_url fetch base_url needed already pat param 10 = (already, [2])) ∧
    (already.length < needed → ∀ html,
      fetch (build_paginated_url base_url param 2) = .ok html →
      (∀ l ∈ extract_article_links html base_url pat, l ∈ already) →
      paginate_by_url fetch base_url needed already pat param 10 = (already, [2])) ∧
    (already.length < needed → ∀ html,
      fetch (build_paginated_url base_url param 2) = .ok html →
      (∃ l, l ∈ extract_article_links html base_url pat ∧ l ∉ already) →
      (mergeNew already already (extract_article_links html base_url pat)).1.length < needed →
      ∃ ps, (paginate_by_url fetch base_url needed already pat param 10).2 =
        2 :: 3 :: ps) := by
  refine ⟨?_, ?_, ?_, ?_, ?_, ?_⟩
  · exact paginateGo_fst_append _ already already
  · obtain ⟨k, hk, hsnd⟩ := @paginateGo_snd_take fetch base_url needed pat param
      (List.range' 2 10) already already
    refine ⟨k, by simpa using hk, ?_⟩
    rw [paginate_by_url, hsnd, range'_take 10 k 2 (by simpa using hk)]
  · intro hc
    unfold paginate_by_url
    rw [show List.range' 2 10 = 2 :: List.range' 3 9 from rfl]
    rw [paginateGo]
    simp [hc]
  · intro hlt hf
    unfold paginate_by_url
    rw [show List.range' 2 10 = 2 :: List.range' 3 9 from rfl]
    rw [paginateGo]
    simp [show ¬ (needed ≤ already.length) by omega, hf]
  · intro hlt html hf hmem
    unfold paginate_by_url
    rw [show List.range' 2 10 = 2 :: List.range' 3 9 from rfl]
    rw [paginateGo]
    simp only [show (needed ≤ already.length) = False by simp; omega, if_false]
    rw [hf]
    simp only [mergeNew, foldl_mergeStep_id _ _ _ _ hmem]
    rfl
  · intro hlt html hf hnew hstill
    obtain ⟨l, hl, hlnot⟩ := hnew
    simp only [mergeNew] at hstill
    unfold paginate_by_url
    rw [show List.range' 2 10 = 2 :: 3 :: List.range' 4 8 from rfl]
    rw [paginateGo]
    simp only [show (needed ≤ already.length) = False by simp; omega, if_false]
    rw [hf]
    dsimp only
    rw [if_neg (by
      simp only [mergeNew]
      have := foldl_mergeStep_counter_pos (extract_article_links html base_url pat)
        already already 0 l hl hlnot
      omega)]
    obtain ⟨ps, hps⟩ := @paginateGo_snd_cons fetch base_url needed pat param
      3 (List.range' 4 8)
      ((extract_article_links html base_url pat).foldl mergeStep
        (already, already, 0)).1
      ((extract_article_links html base_url pat).foldl mergeStep
        (already, already, 0)).2.1
      (by omega)
    refine ⟨ps, ?_⟩
    simp only [mergeNew]
    rw [hps]

/-- Witness for C6: with the needed count already met pagination fetches
nothing; a fetch error on page 2 returns the initial links; a page with
zero new links stops at page 2; a page with a new link and the count
still short is followed by a fetch of page 3. -/
theorem C6_url_pagination_stops_witness :
    paginate_by_url (fun _ => Except.error ()) ("https://ex.com/s/".toList) 0
        [] (fun _ => true) ("page".toList) 10 = ([], []) ∧
    paginate_by_url (fun _ => Except.error ()) ("https://ex.com/s/".toList) 5
        [("https://ex.com/one".toList)] (fun _ => true) ("page".toList) 10 =
      ([("https://ex.com/one".toList)], [2]) ∧
    (paginate_by_url (fun _ => Except.ok []) ("https://ex.com/s/".toList) 5
        [("https://ex.com/one".toList)] (fun _ => true) ("page".toList) 10 =
      ([("https://ex.com/one".toList)], [2]) ∧
    ∃ ps, (paginate_by_url (fun _ => Except.ok ("href=\"https://ex.com/p\"".toList))
        ("https://ex.com/s/".toList) 5 [] (fun _ => true) ("page".toList) 10).2 =
      2 :: 3 :: ps) :=
  ⟨(C6_url_pagination_stops (fun _ => Except.error ()) ("https://ex.com/s/".toList)
      ("page".toList) (fun _ => true) 0 []).2.2.1 (by simp),
   (C6_url_pagination_stops (fun _ => Except.error ()) ("https://ex.com/s/".toList)
      ("page".toList) (fun _ => true) 5 [("https://ex.com/one".toList)]).2.2.2.1
      (by simp) rfl,
   ⟨(C6_url_pagination_stops (fun _ => Except.ok []) ("https://ex.com/s/".toList)
      ("page".toList) (fun _ => true) 5 [("https://ex.com/one".toList)]).2.2.2.2.1
      (by simp) [] rfl
      (by
        intro l hl
        rw [show extract_article_links [] ("https://ex.com/s/".toList)
          (fun _ => true) = [] from by decide] at hl
        simp at hl),
    (C6_url_pagination_stops (fun _ => Except.ok ("href=\"https://ex.com/p\"".toList))
      ("https://ex.com/s/".toList) ("page".toList) (fun _ => true) 5 []).2.2.2.2.2
      (by simp) ("href=\"https://ex.com/p\"".toList) rfl
      ⟨("https://ex.com/p".toList), by decide, by decide⟩ (by decide)⟩⟩

theorem extractPostProcess_content {p : ParsedDoc}
    {cat su sn : List Char} {iu : Option (List Char)} {n : NormalizedArticle}
    (h : extractPostProcess p cat su sn iu = .ok n) :
    n.content.length ≤ 1500 ∧
    (∀ s, p.content = .str s → 1500 < s.length →
      n.content = s.take 1497 ++ "...".toList) := by
  unfold extractPostProcess at h
  dsimp only at h
  split at h
  next s heq =>
    by_cases hlen : 1500 < s.length
    · rw [if_pos hlen] at h
      injection h with h
      subst h
      refine ⟨?_, ?_⟩
      · simp [List.length_take]
      · intro s' hs' _
        rw [heq] at hs'
        injection hs' with hs'
        subst hs'
        rfl
    · rw [if_neg hlen] at h
      injection h with h
      subst h
      refine ⟨by simpa using Nat.le_of_not_lt hlen, ?_⟩
      intro s' hs' hlen'
      rw [heq] at hs'
      injection hs' with hs'
      subst hs'
      omega
  next => simp at h

/-- C1: every `NormalizedArticle` the normalization pipeline produces has
content at most 1500 characters long, and when the parsed model content
exceeds 1500 characters the article is still produced — with its content
hard-truncated to the first 1497 characters plus the three-character
`...` marker — rather than rejected. -/
theorem C1_content_cap_and_truncation (loads : List Char → Option JValue)
    (response? : Except Unit (List Char))
    (raw_text category source_url source_name : List Char)
    (image_url : Option (List Char)) :
    (∀ n, extract_article_with_mistral loads response? raw_text category
        source_url source_name image_url = some n → n.content.length ≤ 1500) ∧
    (∀ response p s, response? = .ok response →
      parse_mistral_response loads response = .ok (some p) →
      p.content = .str s → 1500 < s.length →
      ¬ (raw_text = [] ∨ (pyStrip raw_text).length < 100) →
      ∃ n, extract_article_with_mistral loads response? raw_text category
          source_url source_name image_url = some n ∧
        n.content = s.take 1497 ++ "...".toList) := by
  constructor
  · intro n h
    unfold extract_article_with_mistral at h
    split at h
    · simp at h
    · split at h
      · simp at h
      · split at h
        · simp at h
        · simp at h
        · split at h
          · simp at h
          · next hpost =>
            injection h with h
            subst h
            exact (extractPostProcess_content hpost).1
  · intro response p s hresp hparse hcs hlen hraw
    subst hresp
    unfold extract_article_with_mistral
    rw [if_neg hraw]
    dsimp only
    rw [hparse]
    dsimp only
    unfold extractPostProcess
    rw [hcs]
    dsimp only
    rw [if_pos hlen]
    exact ⟨_, rfl, rfl⟩

set_option maxRecDepth 100000 in
/-- Witness for C1: a model answer whose content is 1600 characters long
is normalized to content `'a' * 1497 ++ "..."`, not rejected. -/
theorem C1_content_cap_and_truncation_witness :
    ∃ n, extract_article_with_mistral
        (fun _ => some (.obj [(("title".toList), .str ("T".toList)),
          (("content".toList), .str (List.replicate 1600 'a'))]))
        (.ok ("j".toList)) (List.replicate 150 'x') ("cat".toList)
        ("https://ex.com/u".toList) ("src".toList) none = some n ∧
      n.content = (List.replicate 1600 'a').take 1497 ++ "...".toList :=
  (C1_content_cap_and_truncation
      (fun _ => some (.obj [(("title".toList), .str ("T".toList)),
        (("content".toList), .str (List.replicate 1600 'a'))]))
      (.ok ("j".toList)) (List.replicate 150 'x') ("cat".toList)
      ("https://ex.com/u".toList) ("src".toList) none).2
    ("j".toList)
    ⟨.str ("T".toList), .str (List.replicate 1600 'a'), .null,
      .str ("unknown".toList)⟩
    (List.replicate 1600 'a') rfl rfl rfl (by decide) (by decide)

theorem filter_by_date_eq_filter (arts : List DatedArticle) (f t : List Char) :
    filter_by_date arts f t = arts.filter (keptByDateFilter f t) := by
  unfold filter_by_date
  suffices h : ∀ (l : List DatedArticle) (acc : List DatedArticle),
      l.foldl (fun result a =>
        match a.date_of_publication with
        | none => result ++ [a]
        | some d =>
          if pyStrLe f d ∧ pyStrLe d t then result ++ [a]
          else result) acc = acc ++ l.filter (keptByDateFilter f t) by
    simpa using h arts []
  intro l
  induction l with
  | nil => intro acc; simp
  | cons a l ih =>
    intro acc
    simp only [List.foldl_cons, List.filter_cons]
    cases hd : a.date_of_publication with
    | none =>
      rw [ih]
      simp [keptByDateFilter, hd]
    | some d =>
      by_cases hle : pyStrLe f d ∧ pyStrLe d t
      · simp only [hd, hle, if_true]
        rw [ih]
        simp [keptByDateFilter, hd, hle.1, hle.2]
      · simp only [hd, hle, if_false]
        rw [ih]
        have : keptByDateFilter f t a = false := by
          simp [keptByDateFilter, hd]
          intro h1
          rcases Decidable.not_and_iff_or_not.mp hle with h2 | h2
          · exact absurd h1 h2
          · exact Bool.eq_false_iff.mpr (fun hh => h2 hh)
        simp [this]

/-- C7: the result filter keeps exactly the articles whose publication
date is absent or lies within `[dateFrom, dateTo]` inclusive under
lexicographic string comparison, and the final output is capped at the
requested limit. -/
theorem C7_date_filter_and_limit (arts : List DatedArticle)
    (f t : List Char) (lim : Nat) :
    (∀ a, a ∈ filter_by_date arts f t ↔
      (a ∈ arts ∧ (a.date_of_publication = none ∨
        ∃ d, a.date_of_publication = some d ∧
          pyStrLe f d = true ∧ pyStrLe d t = true))) ∧
    filter_and_limit arts f t lim = (filter_by_date arts f t).take lim ∧
    (filter_and_limit arts f t lim).length ≤ lim := by
  refine ⟨?_, rfl, ?_⟩
  · intro a
    rw [filter_by_date_eq_filter, List.mem_filter]
    cases hd : a.date_of_publication with
    | none => simp [keptByDateFilter, hd]
    | some d => simp [keptByDateFilter, hd, Bool.and_eq_true]
  · unfold filter_and_limit
    simpa using List.length_take_le lim (filter_by_date arts f t)

/-- Witness for C7 on the spec's example range 2025-01-20..2025-01-27: an
undated article and one dated 2025-01-25 are kept, one dated 2025-01-15
is excluded, and the capped output length stays within the limit. -/
theorem C7_date_filter_and_limit_witness :
    (⟨none, 1⟩ : DatedArticle) ∈ filter_by_date
      [⟨some ("2025-01-15".toList), 0⟩, ⟨none, 1⟩, ⟨some ("2025-01-25".toList), 2⟩]
      ("2025-01-20".toList) ("2025-01-27".toList) ∧
    (⟨some ("2025-01-25".toList), 2⟩ : DatedArticle) ∈ filter_by_date
      [⟨some ("2025-01-15".toList), 0⟩, ⟨none, 1⟩, ⟨some ("2025-01-25".toList), 2⟩]
      ("2025-01-20".toList) ("2025-01-27".toList) ∧
    ¬ ((⟨some ("2025-01-15".toList), 0⟩ : DatedArticle) ∈ filter_by_date
      [⟨some ("2025-01-15".toList), 0⟩, ⟨none, 1⟩, ⟨some ("2025-01-25".toList), 2⟩]
      ("2025-01-20".toList) ("2025-01-27".toList)) ∧
    (filter_and_limit
      [⟨some ("2025-01-15".toList), 0⟩, ⟨none, 1⟩, ⟨some ("2025-01-25".toList), 2⟩]
      ("2025-01-20".toList) ("2025-01-27".toList) 10).length ≤ 10 :=
  ⟨((C7_date_filter_and_limit
      [⟨some ("2025-01-15".toList), 0⟩, ⟨none, 1⟩, ⟨some ("2025-01-25".toList), 2⟩]
      ("2025-01-20".toList) ("2025-01-27".toList) 10).1 _).mpr
      ⟨by decide, Or.inl rfl⟩,
   ((C7_date_filter_and_limit
      [⟨some ("2025-01-15".toList), 0⟩, ⟨none, 1⟩, ⟨some ("2025-01-25".toList), 2⟩]
      ("2025-01-20".toList) ("2025-01-27".toList) 10).1 _).mpr
      ⟨by decide, Or.inr ⟨("2025-01-25".toList), rfl, by decide, by decide⟩⟩,
   fun hmem => by
    have h := ((C7_date_filter_and_limit
      [⟨some ("2025-01-15".toList), 0⟩, ⟨none, 1⟩, ⟨some ("2025-01-25".toList), 2⟩]
      ("2025-01-20".toList) ("2025-01-27".toList) 10).1 _).mp hmem
    rcases h.2 with h2 | ⟨d, hd, h3, _⟩
    · simp at h2
    · injection hd with hd
      subst hd
      exact absurd h3 (by decide),
   (C7_date_filter_and_limit
      [⟨some ("2025-01-15".toList), 0⟩, ⟨none, 1⟩, ⟨some ("2025-01-25".toList), 2⟩]
      ("2025-01-20".toList) ("2025-01-27".toList) 10).2.2⟩

/-- C9: the URL-pagination builder replaces the pagination parameter's
value when the base URL already carries it, and appends the parameter
when it is absent (the repository's own docstring examples). -/
theorem C9_build_paginated_url_examples :
    build_paginated_url ("https://www.uzdaily.uz/uz/section/7/?page=1".toList)
        ("page".toList) 2 =
      ("https://www.uzdaily.uz/uz/section/7/?page=2".toList) ∧
    build_paginated_url ("https://www.gazeta.uz/oz/sport/".toList)
        ("page".toList) 2 =
      ("https://www.gazeta.uz/oz/sport/?page=2".toList) ∧
    build_paginated_url ("https://zamon.uz/categories/sport?page=1".toList)
        ("page".toList) 3 =
      ("https://zamon.uz/categories/sport?page=3".toList) := by
  refine ⟨by decide, by decide, by decide⟩

theorem parseMistralJson_success {fields : List (List Char × JValue)}
    {p : ParsedDoc} (h : parseMistralJson (.obj fields) = .ok (some p)) :
    jTruthy p.title = true ∧
    (∀ ts, p.title = .str ts → ts ≠ []) ∧
    (∃ s, p.content = .str s ∧ s ≠ [] ∧ 50 ≤ (pyStrip s).length) ∧
    (jGet fields ("language".toList) = none →
      p.language = .str ("unknown".toList)) := by
  unfold parseMistralJson at h
  split at h
  next fields' heqf =>
    injection heqf with heqf
    subst heqf
    split at h
    next hcond => simp at h
    next hcond =>
      have htitle : jTruthyOpt (jGet fields ("title".toList)) = true := by
        by_contra hc
        exact hcond (Or.inl (by simp_all))
      have hcontent : jTruthyOpt (jGet fields ("content".toList)) = true := by
        by_contra hc
        exact hcond (Or.inr (by simp_all))
      split at h
      next s heq =>
        split at h
        next => simp at h
        next hlen =>
          injection h with h
          injection h with h
          subst h
          refine ⟨?_, ?_, ?_, ?_⟩
          · simp only [jGetD]
            cases hg : jGet fields ("title".toList) with
            | none => rw [hg] at htitle; simp [jTruthyOpt] at htitle
            | some v =>
              rw [hg] at htitle
              simpa [jTruthyOpt, Option.getD] using htitle
          · intro ts hts
            simp only [jGetD] at hts
            intro hnil
            subst hnil
            cases hg : jGet fields ("title".toList) with
            | none => rw [hg] at htitle; simp [jTruthyOpt] at htitle
            | some v =>
              rw [hg] at htitle
              rw [hg] at hts
              simp only [Option.getD] at hts
              rw [hts] at htitle
              simp [jTruthyOpt, jTruthy] at htitle
          · refine ⟨s, ?_, ?_, by omega⟩
            · have heq' : jGet fields ['c', 'o', 'n', 't', 'e', 'n', 't'] =
                  some (JValue.str s) := heq
              simp [jGetD, heq']
            · rw [heq] at hcontent
              simp [jTruthyOpt, jTruthy] at hcontent
              simpa using hcontent
          · intro hlang
            have hlang' : jGet fields ['l', 'a', 'n', 'g', 'u', 'a', 'g', 'e'] =
                none := hlang
            simp [jGetD, hlang']
      next => simp at h
  next hne => exact absurd rfl (hne fields)

/-- C10: whenever `_parse_mistral_response` succeeds, the record has a
truthy title (non-empty when it is a string) and a non-empty string
content whose trimmed length is at least 50; and when the decoded JSON
object has no `language` key the article is not rejected — its language
defaults to the string `"unknown"`. -/
theorem C10_parse_success_shape (loads : List Char → Option JValue)
    (resp : List Char) (p : ParsedDoc)
    (hp : parse_mistral_response loads resp = .ok (some p)) :
    jTruthy p.title = true ∧
    (∀ ts, p.title = .str ts → ts ≠ []) ∧
    (∃ s, p.content = .str s ∧ s ≠ [] ∧ 50 ≤ (pyStrip s).length) ∧
    (∀ fields, loads (stripFences resp) = some (.obj fields) →
      jGet fields ("language".toList) = none →
      p.language = .str ("unknown".toList)) := by
  unfold parse_mistral_response at hp
  split at hp
  · simp at hp
  · split at hp
    · simp at hp
    · next data hload =>
      have hshape : ∃ fields, data = .obj fields := by
        cases data with
        | obj fields => exact ⟨fields, rfl⟩
        | null => simp [parseMistralJson] at hp
        | bool b => simp [parseMistralJson] at hp
        | num n => simp [parseMistralJson] at hp
        | str s => simp [parseMistralJson] at hp
        | arr xs => simp [parseMistralJson] at hp
      obtain ⟨fields, rfl⟩ := hshape
      obtain ⟨h1, h2, h3, h4⟩ := parseMistralJson_success hp
      refine ⟨h1, h2, h3, ?_⟩
      intro fields' hload' hlang
      rw [hload] at hload'
      injection hload' with hload'
      injection hload' with hload'
      subst hload'
      exact h4 hlang

/-- Witness for C10: a JSON object carrying only `title` and `content`
(no `language` key) is accepted, and its language defaults to
`"unknown"`. -/
theorem C10_parse_success_shape_witness :
    jTruthy (ParsedDoc.title ⟨.str ("T".toList), .str (List.replicate 60 'c'),
        .null, .str ("unknown".toList)⟩) = true ∧
    (∃ s, (ParsedDoc.content ⟨.str ("T".toList), .str (List.replicate 60 'c'),
        .null, .str ("unknown".toList)⟩) = .str s ∧ s ≠ [] ∧
      50 ≤ (pyStrip s).length) ∧
    (ParsedDoc.language ⟨.str ("T".toList), .str (List.replicate 60 'c'),
        .null, .str ("unknown".toList)⟩) = .str ("unknown".toList) :=
  ⟨(C10_parse_success_shape
      (fun _ => some (.obj [(("title".toList), .str ("T".toList)),
        (("content".toList), .str (List.replicate 60 'c'))]))
      ("x".toList) _ rfl).1,
   (C10_parse_success_shape
      (fun _ => some (.obj [(("title".toList), .str ("T".toList)),
        (("content".toList), .str (List.replicate 60 'c'))]))
      ("x".toList) _ rfl).2.2.1,
   (C10_parse_success_shape
      (fun _ => some (.obj [(("title".toList), .str ("T".toList)),
        (("content".toList), .str (List.replicate 60 'c'))]))
      ("x".toList) _ rfl).2.2.2
      [(("title".toList), .str ("T".toList)),
        (("content".toList), .str (List.replicate 60 'c'))] rfl rfl⟩

end NewsFetcher
